import Mathlib

/-!
Shallow embedding of Senget's distributable resolution and
installation/uninstallation engine (`src/includes/github/api.rs`,
`src/includes/dist.rs`, `src/includes/package.rs`, `src/includes/commands.rs`).

Rust `String`/`&str` values are modelled as `List Char`; Rust's string
primitives (`contains`, `ends_with`, `replace`, `split`, `to_lowercase`) are
re-implemented below with their documented semantics (leftmost,
non-overlapping matches; ASCII lowering suffices for the inputs at hand).
Filesystem trees are modelled by the inductive `FsEntry`; `Path` values are
lists of path components, so that `Path::ends_with` (a component-wise suffix
test in Rust) can be modelled faithfully.
-/

namespace Senget

/-- Rust strings, modelled as lists of characters. -/
abbrev Str := List Char

/-- ASCII model of `str::to_lowercase`. -/
def strLower (s : Str) : Str := s.map Char.toLower

/-- Model of `str::contains(pat)`: `pat` occurs as a contiguous substring. -/
def containsStr (s pat : Str) : Bool :=
  if pat.isPrefixOf s then true
  else
    match s with
    | [] => false
    | _ :: t => containsStr t pat

/-- Model of `str::ends_with(pat)` (string-suffix semantics). -/
def endsWithStr (s pat : Str) : Bool := pat.isSuffixOf s

/-- Worker for `removeAll`; the fuel starts at `s.length`, which bounds the
recursion since every step consumes at least one character. -/
def removeAllAux : Nat → Str → Str → Str
  | 0, _, s => s
  | _ + 1, _, [] => []
  | fuel + 1, pat, c :: rest =>
    if !pat.isEmpty && pat.isPrefixOf (c :: rest) then
      removeAllAux fuel pat ((c :: rest).drop pat.length)
    else
      c :: removeAllAux fuel pat rest

/-- Model of `str::replace(pat, "")`: delete every leftmost non-overlapping
occurrence of `pat`. -/
def removeAll (pat s : Str) : Str := removeAllAux s.length pat s

/-- Worker for `splitOnStr`; the fuel starts at `s.length`, which bounds the
recursion since every step consumes at least one character. -/
def splitOnAux : Nat → Str → Str → Str → List Str
  | 0, _, acc, s => [acc.reverse ++ s]
  | _ + 1, _, acc, [] => [acc.reverse]
  | fuel + 1, pat, acc, c :: rest =>
    if !pat.isEmpty && pat.isPrefixOf (c :: rest) then
      acc.reverse :: splitOnAux fuel pat [] ((c :: rest).drop pat.length)
    else
      splitOnAux fuel pat (c :: acc) rest

/-- Model of `str::split(pat)` for a non-empty pattern: the pieces between
leftmost non-overlapping occurrences of `pat` (empty pieces included). -/
def splitOnStr (pat s : Str) : List Str := splitOnAux s.length pat [] s

/-- The three distributable kinds, `DistType` of `dist.rs` (declared in the
order `Installer`, `Zip`, `Exe`, which fixes the derived `Ord`). -/
inductive DistType
  | Installer
  | Zip
  | Exe
deriving DecidableEq, Repr

/-- Discriminant of `DistType` under Rust's derived `Ord`: declaration order,
`Installer < Zip < Exe`. -/
def DistType.disc : DistType → Nat
  | .Installer => 0
  | .Zip => 1
  | .Exe => 2

/-- A release asset as the classifier sees it (`serde_json_types::Asset`):
file name and download URL. -/
structure Asset where
  name : Str
  browser_download_url : Str
deriving DecidableEq, Repr

/-- `AssetInfo` of `github/api.rs`: a classified asset. -/
structure AssetInfo where
  file_title : Str
  download_url : Str
  dist_type : DistType
  is_exact_match : Bool
deriving DecidableEq, Repr

/-- `Repo::fuzz_asset_name` of `github/api.rs`: strip punctuation and the
fixed packaging-token vocabulary, in the source's exact order. -/
def fuzz_asset_name (lower_name : Str) : Str :=
  let s := removeAll ['-'] lower_name
  let s := removeAll ['_'] s
  let s := removeAll ['.'] s
  let s := removeAll ("installer".toList) s
  let s := removeAll ("update".toList) s
  let s := removeAll ("updater".toList) s
  let s := removeAll ("setup".toList) s
  let s := removeAll ("msi".toList) s
  let s := removeAll ("zip".toList) s
  let s := removeAll ("portable".toList) s
  let s := removeAll ("port".toList) s
  let s := removeAll ("exe".toList) s
  let s := removeAll ("windows".toList) s
  let s := removeAll ("win".toList) s
  let s := removeAll ['x'] s
  let s := removeAll ("bit".toList) s
  let s := removeAll ("amd64".toList) s
  let s := removeAll ("amd".toList) s
  let s := removeAll ("i386".toList) s
  let s := removeAll ("386".toList) s
  let s := removeAll ("86".toList) s
  let s := removeAll ("64".toList) s
  removeAll ("32".toList) s

/-- `Repo::parse_asset_info` of `github/api.rs`: classify one asset, or drop
it (`None`). -/
def parse_asset_info (repo_name_lower : Str) (asset : Asset) : Option AssetInfo :=
  let asset_name_lower := strLower asset.name
  if containsStr asset_name_lower ("arm".toList) then none
  else if !containsStr asset_name_lower repo_name_lower then none
  else
    let is_exe := endsWithStr asset_name_lower (".exe".toList)
    let is_installer_dist := endsWithStr asset_name_lower (".msi".toList) ||
      (is_exe && (containsStr asset_name_lower ("install".toList) ||
        containsStr asset_name_lower ("setup".toList) ||
        containsStr asset_name_lower ("update".toList)))
    let is_exe_dist := !is_installer_dist && is_exe
    let is_zip_dist := endsWithStr asset_name_lower (".zip".toList) &&
      !containsStr asset_name_lower ("mac".toList) &&
      !containsStr asset_name_lower ("darwin".toList) &&
      !containsStr asset_name_lower ("linux".toList)
    if is_exe_dist || is_zip_dist || is_installer_dist then
      some
        { file_title := asset.name
          download_url := asset.browser_download_url
          dist_type :=
            if is_exe_dist then DistType.Exe
            else if is_zip_dist then DistType.Zip
            else DistType.Installer
          is_exact_match :=
            fuzz_asset_name asset_name_lower == fuzz_asset_name repo_name_lower }
    else none

/-- `PackageInfo` of `dist.rs` as `api.rs` builds it (name, download URL,
version, file title). -/
structure PackageInfo where
  name : Str
  file_title : Str
  download_url : Str
  version : Str
deriving DecidableEq, Repr

/-- `Dist` of `dist.rs`: the tagged distributable. -/
inductive Dist
  | Zip (package_info : PackageInfo)
  | Exe (package_info : PackageInfo)
  | Installer (package_info : PackageInfo)
deriving DecidableEq, Repr

/-- `PackageInfo::fetch_dist` of `dist.rs`. -/
def PackageInfo.fetch_dist (self : PackageInfo) (dist_type : DistType) : Dist :=
  match dist_type with
  | .Exe => .Exe self
  | .Zip => .Zip self
  | .Installer => .Installer self

/-- Insert `x` into `l` before the first element `y` with `le x y`:
the insertion step of a stable sort. -/
def insertLe (le : α → α → Bool) (x : α) : List α → List α
  | [] => [x]
  | y :: ys => if le x y then x :: y :: ys else y :: insertLe le x ys

/-- Stable sort with respect to the total preorder `le` (insertion sort, which
is stable; Rust's `slice::sort_by`/`sort_by_key` are stable sorts, and a
stable sort's output under a total preorder is unique). -/
def stableSortBy (le : α → α → Bool) : List α → List α
  | [] => []
  | x :: xs => insertLe le x (stableSortBy le xs)

/-- `Repo::find_preferred_dist` of `github/api.rs`. With no preference the
source runs `sort_by(|a, b| b.dist_type.partial_cmp(&a.dist_type).unwrap())`
(stable sort, descending in the derived `Ord`, i.e. `a` may precede `b` iff
`disc b ≤ disc a`) and then `sort_by_key(|ai| !ai.is_exact_match)` (stable,
ascending in `Bool`, i.e. `a` may precede `b` iff `a.is_exact_match ||
!b.is_exact_match`), and takes element 0. With a preference it takes the
first classified asset of that kind. -/
def find_preferred_dist (preferred_dist_type : Option DistType)
    (asset_infos : List AssetInfo) (repo_name version : Str) : Option Dist :=
  match preferred_dist_type with
  | none =>
    let sorted := stableSortBy
      (fun a b => decide (b.dist_type.disc ≤ a.dist_type.disc)) asset_infos
    let sorted := stableSortBy
      (fun a b => a.is_exact_match || !b.is_exact_match) sorted
    sorted.head?.map fun asset_info =>
      PackageInfo.fetch_dist
        { name := repo_name
          file_title := asset_info.file_title
          download_url := asset_info.download_url
          version := version }
        asset_info.dist_type
  | some pref =>
    (asset_infos.find? fun ai => ai.dist_type == pref).map fun ai =>
      PackageInfo.fetch_dist
        { name := repo_name
          file_title := ai.file_title
          download_url := ai.download_url
          version := version }
        ai.dist_type

/-- `Repo::parse_assets_for_distributable` of `github/api.rs`. -/
def parse_assets_for_distributable (repo_name : Str) (assets : List Asset)
    (version : Str) (preferred_dist_type : Option DistType) : Option Dist :=
  let repo_name_lower := strLower repo_name
  let asset_infos := assets.filterMap (parse_asset_info repo_name_lower)
  if asset_infos.isEmpty then none
  else find_preferred_dist preferred_dist_type asset_infos repo_name version

/-- `MSI_EXEC` of `utils.rs`: the system installer executable's name. -/
def MSI_EXEC : Str := "MsiExec.exe".toList

/-- `Package::extract_program_and_args` of `package.rs`: parse a stored
uninstall command into a program and its argument list. The source splits on
`"MsiExec.exe "` when the command mentions the system installer; otherwise it
splits on `"\" "` (quote + space), strips quotes from the first piece for the
program, and splits the second piece on `" - "` for the arguments. -/
def extract_program_and_args (uninstall_command : Str) : Str × List Str :=
  if containsStr uninstall_command MSI_EXEC then
    let pieces := splitOnStr (MSI_EXEC ++ [' ']) uninstall_command
    (MSI_EXEC, pieces.drop 1)
  else
    let pieces := splitOnStr ['"', ' '] uninstall_command
    let program := removeAll ['"'] (pieces.headD [])
    let args_string := (pieces.drop 1).headD []
    (program, splitOnStr (" - ".toList) args_string)

/-- The OS error text `Package::uninstall_installer_distributable` matches to
recognise an invalid-path failure. -/
def INVALID_FILENAME_MSG : Str :=
  "The filename, directory name, or volume label syntax is incorrect.".toList

/-- The OS effects `Package::uninstall` depends on: whether running the
uninstall command returned an `io::Error` (and its message), and the
`Path::is_file` test. -/
structure UninstallEnv where
  run_error : Option Str
  is_file : Str → Bool

/-- `Package::uninstall_installer_distributable` of `package.rs`. An
`io::Error` from running the command is swallowed unless its message contains
`INVALID_FILENAME_MSG` (then `Ok(false)`); afterwards `Ok(false)` iff the
recorded executable path still exists as a file, else `Ok(true)`; with no
stored command, `Ok(false)`. The function returns no error. -/
def uninstall_installer_distributable (uninstall_command : Option Str)
    (executable_path : Option Str) (env : UninstallEnv) : Bool :=
  match uninstall_command with
  | some _us =>
    if (match env.run_error with
        | some msg => containsStr msg INVALID_FILENAME_MSG
        | none => false) then
      false
    else
      match executable_path with
      | some ep => if env.is_file ep then false else true
      | none => true
  | none => false

/-- `InstallInfo` of `dist.rs`, with paths as strings. -/
structure InstallInfo where
  executable_path : Option Str
  installation_folder : Option Str
  uninstall_command : Option Str
  dist_type : DistType
  create_shortcut_file : Bool
deriving DecidableEq, Repr

/-- A `Package` of `package.rs`, restricted to the fields `uninstall` reads. -/
structure Package where
  repo_name : Str
  install_info : InstallInfo

/-- Outcome of `Package::uninstall`: an ordinary `Ok` result, or a panic. -/
inductive UninstallOutcome
  | ok (uninstalled : Bool)
  | panicked
deriving DecidableEq, Repr

/-- `Package::uninstall` of `package.rs`. The environment-variable
bookkeeping and the folder/shortcut deletions are modelled as succeeding (they
only add further `io::Error` exits); the control flow is the source's: for an
`Installer`-kind package, delegate; otherwise the source calls
`.as_ref().unwrap()` on `install_info.installation_folder`, which panics when
that field is `None`. -/
def Package.uninstall (self : Package) (env : UninstallEnv) : UninstallOutcome :=
  if self.install_info.dist_type = DistType.Installer then
    .ok (uninstall_installer_distributable self.install_info.uninstall_command
      self.install_info.executable_path env)
  else
    match self.install_info.installation_folder with
    | none => .panicked
    | some _folder => .ok true

/-- ASCII letter test on a byte, `u8::is_ascii_alphabetic`. -/
def is_ascii_alphabetic (byte : Nat) : Bool :=
  (65 ≤ byte && byte ≤ 90) || (97 ≤ byte && byte ≤ 122)

/-- The filter inside `ExeDist::check_if_is_actually_installer`: keep only
the ASCII-alphabetic bytes of the downloaded file, as characters. -/
def ascii_letter_text (file_bytes : List Nat) : Str :=
  file_bytes.filterMap fun byte =>
    if is_ascii_alphabetic byte then some (Char.ofNat byte) else none

/-- `ExeDist::check_if_is_actually_installer` of `dist.rs`: re-read the
downloaded file and reclassify as an installer when the letters it contains
include "Inno" or "Nullsoft". -/
def check_if_is_actually_installer (package_info : PackageInfo)
    (file_bytes : List Nat) : Dist :=
  let text := ascii_letter_text file_bytes
  if containsStr text ("Inno".toList) || containsStr text ("Nullsoft".toList) then
    Dist.Installer package_info
  else
    Dist.Exe package_info

/-- The reclassification step of `internal_download_package` in `commands.rs`:
after downloading, an `Exe`-classified dist is replaced by the result of
`check_if_is_actually_installer`; other kinds pass through unchanged. -/
def reclassify_downloaded_dist (dist : Dist) (file_bytes : List Nat) : Dist :=
  match dist with
  | Dist.Exe package_info => check_if_is_actually_installer package_info file_bytes
  | other => other

/-- A filesystem entry: a file or a directory with its entries. Models the
trees walked by `dist.rs`. -/
inductive FsEntry
  | file (name : Str)
  | dir (name : Str) (entries : List FsEntry)

/-- The file name of an entry (its final path component). -/
def FsEntry.entry_name : FsEntry → Str
  | .file n => n
  | .dir n _ => n

/-- `Path::is_dir` for an entry of the tree. -/
def FsEntry.isDirB : FsEntry → Bool
  | .dir _ _ => true
  | .file _ => false

/-- Rust `Path::ends_with`: a component-wise suffix test (NOT a string-suffix
test on the rendered path). Paths are lists of components. -/
def path_ends_with (path suffix : List Str) : Bool := suffix.isSuffixOf path

/-- `InstallerDist::fetch_shortcut_files` of `dist.rs`, as the list of paths
it inserts into the set: for each entry, a file is collected when
`e.ends_with(".lnk")` holds of its path (Rust's component-wise test), and a
directory is recursed into. -/
def fetch_shortcut_files (entries : List FsEntry) (folder_path : List Str) :
    List (List Str) :=
  match entries with
  | [] => []
  | FsEntry.file n :: rest =>
    let e_path := folder_path ++ [n]
    (if path_ends_with e_path [".lnk".toList] then [e_path] else []) ++
      fetch_shortcut_files rest folder_path
  | FsEntry.dir n es :: rest =>
    fetch_shortcut_files es (folder_path ++ [n]) ++
      fetch_shortcut_files rest folder_path

/-- `ZipDist::find_inner_unzip_folder` of `dist.rs`: while the folder has
exactly one directory among its entries, descend into it; otherwise return
the folder itself. (`folder_items` filtered to directories; `!= 1` returns
the outer folder.) -/
def FsEntry.find_inner_unzip_folder : FsEntry → FsEntry
  | .file n => .file n
  | .dir n es =>
    match h : es.filter FsEntry.isDirB with
    | [inner] => inner.find_inner_unzip_folder
    | _ => .dir n es
decreasing_by
  rename_i es
  have hmem : inner ∈ es.filter FsEntry.isDirB := by
    rw [h]; exact List.mem_singleton_self inner
  have hlt : sizeOf inner < sizeOf es :=
    List.sizeOf_lt_of_mem (List.mem_of_mem_filter hmem)
  simp only [FsEntry.dir.sizeOf_spec]
  omega

/-- One folder's scan inside `ZipDist::find_executable_path`: walk the
folder's items in order; an item whose lowercased name equals
`<name>.exe` returns immediately (`Sum.inl`), otherwise the first item whose
lowercased name ends in "exe" and contains the package name is remembered as
the fallback, and the scan ends with the updated fallback (`Sum.inr`). -/
def scanFolder (exe_name self_name_lower : Str) (folder_path : List Str) :
    List FsEntry → Option (List Str) → Sum (List Str) (Option (List Str))
  | [], found_exe => .inr found_exe
  | item :: rest, found_exe =>
    let lower_file_name := strLower item.entry_name
    if lower_file_name == exe_name then
      .inl (folder_path ++ [item.entry_name])
    else
      let found_exe :=
        if found_exe.isNone && endsWithStr lower_file_name ("exe".toList) &&
            containsStr lower_file_name self_name_lower then
          some (folder_path ++ [item.entry_name])
        else found_exe
      scanFolder exe_name self_name_lower folder_path rest found_exe

/-- The subdirectories of a folder's items, as (path, entries) pairs, in
order: what `find_executable_path` pushes onto the back of its queue. -/
def subFolders (folder_path : List Str) (items : List FsEntry) :
    List (List Str × List FsEntry) :=
  items.filterMap fun item =>
    match item with
    | .dir n es => some (folder_path ++ [n], es)
    | .file _ => none

/-- Number of entries in a forest, counted recursively (termination measure
for the breadth-first search). -/
def entryListSize : List FsEntry → Nat
  | [] => 0
  | .file _ :: rest => 1 + entryListSize rest
  | .dir _ es :: rest => 1 + entryListSize es + entryListSize rest

/-- Termination measure of the breadth-first search queue: one unit per
queued folder plus the recursive size of its entries. -/
def queueSize : List (List Str × List FsEntry) → Nat
  | [] => 0
  | (_, items) :: rest => 1 + entryListSize items + queueSize rest

/-- The queue loop of `ZipDist::find_executable_path` of `dist.rs`: pop the
front folder, scan its items (returning at once on an exact match), push its
subdirectories on the back, and return the remembered fallback when the
queue is exhausted. -/
def bfs (exe_name self_name_lower : Str)
    (queue : List (List Str × List FsEntry)) (found_exe : Option (List Str)) :
    Option (List Str) :=
  match queue with
  | [] => found_exe
  | (folder_path, items) :: rest =>
    match scanFolder exe_name self_name_lower folder_path items found_exe with
    | .inl exact => some exact
    | .inr found_exe2 =>
      bfs exe_name self_name_lower (rest ++ subFolders folder_path items)
        found_exe2
termination_by queueSize queue
decreasing_by
  have happ : ∀ (q1 q2 : List (List Str × List FsEntry)),
      queueSize (q1 ++ q2) = queueSize q1 + queueSize q2 := by
    intro q1 q2
    induction q1 with
    | nil => simp [queueSize]
    | cons hd tl ih =>
      obtain ⟨fp, its⟩ := hd
      simp [queueSize, ih]
      omega
  have hsub : ∀ (fp : List Str) (items : List FsEntry),
      queueSize (subFolders fp items) ≤ entryListSize items := by
    intro fp items
    induction items with
    | nil => simp [subFolders, queueSize, entryListSize]
    | cons hd tl ih =>
      cases hd with
      | file n =>
        simpa [subFolders, entryListSize, List.filterMap_cons] using
          Nat.le_trans ih (Nat.le_add_left _ _)
      | dir n es =>
        simp only [subFolders, List.filterMap_cons, entryListSize] at *
        simp only [queueSize]
        omega
  have hlt : ∀ (fp : List Str) (its : List FsEntry)
      (rst : List (List Str × List FsEntry)),
      queueSize (rst ++ subFolders fp its) < queueSize ((fp, its) :: rst) := by
    intro fp its rst
    simp only [queueSize, happ]
    have := hsub fp its
    omega
  exact hlt _ _ _

/-- `ZipDist::find_executable_path` of `dist.rs`: breadth-first search for
`<name>.exe` starting from one folder, with no fallback remembered yet. -/
def find_executable_path (self_name_lower : Str) (folder_path : List Str)
    (folder_entries : List FsEntry) : Option (List Str) :=
  bfs (self_name_lower ++ ".exe".toList) self_name_lower
    [(folder_path, folder_entries)] none

/-- Whether a forest contains, anywhere, a file whose lowercased name equals
`exe_name`. -/
def listHasExactFile (exe_name : Str) : List FsEntry → Bool
  | [] => false
  | .file n :: rest => (strLower n == exe_name) || listHasExactFile exe_name rest
  | .dir _ es :: rest => listHasExactFile exe_name es || listHasExactFile exe_name rest

/-- `Path::file_name` on a component path: its final component. -/
def pathFileName : List Str → Str
  | [] => []
  | n :: rest => if rest.isEmpty then n else pathFileName rest

/-- The file name of a path built from a folder path and an entry name is
that entry name. -/
theorem pathFileName_concat (a : Str) : ∀ (l : List Str), pathFileName (l ++ [a]) = a := by
  intro l
  induction l with
  | nil => rfl
  | cons x xs ih =>
    have hne : (xs ++ [a]).isEmpty = false := by cases xs <;> rfl
    simp [pathFileName, hne, ih]

/-- A leading file contributes no subfolder. -/
theorem subFolders_cons_file (fp : List Str) (n : Str) (rest : List FsEntry) :
    subFolders fp (.file n :: rest) = subFolders fp rest := rfl

/-- A leading directory contributes its (path, entries) pair. -/
theorem subFolders_cons_dir (fp : List Str) (n : Str) (es rest : List FsEntry) :
    subFolders fp (.dir n es :: rest) = (fp ++ [n], es) :: subFolders fp rest := rfl

/-- The queue measure is additive over append. -/
theorem queueSize_append (q1 q2 : List (List Str × List FsEntry)) :
    queueSize (q1 ++ q2) = queueSize q1 + queueSize q2 := by
  induction q1 with
  | nil => simp [queueSize]
  | cons hd tl ih =>
    obtain ⟨fp, its⟩ := hd
    simp [queueSize, ih]
    omega

/-- The subfolders of a folder's items weigh no more than the items. -/
theorem queueSize_subFolders_le (fp : List Str) (items : List FsEntry) :
    queueSize (subFolders fp items) ≤ entryListSize items := by
  induction items with
  | nil => simp [subFolders, queueSize, entryListSize]
  | cons hd tl ih =>
    cases hd with
    | file n =>
      simpa [subFolders, entryListSize, List.filterMap_cons] using
        Nat.le_trans ih (Nat.le_add_left _ _)
    | dir n es =>
      simp only [subFolders, List.filterMap_cons, entryListSize] at *
      simp only [queueSize]
      omega

/-- When a folder scan returns at once (`Sum.inl`), the returned path is the
folder path extended by an item whose lowercased name is the exact
executable name. -/
theorem scanFolder_inl_name (exe_name self_name_lower : Str)
    (folder_path : List Str) :
    ∀ (items : List FsEntry) (found_exe : Option (List Str)) (p : List Str),
      scanFolder exe_name self_name_lower folder_path items found_exe =
        .inl p →
      ∃ nm, p = folder_path ++ [nm] ∧ strLower nm = exe_name := by
  intro items
  induction items with
  | nil => intro found p h; simp [scanFolder] at h
  | cons item rest ih =>
    intro found p h
    simp only [scanFolder] at h
    split at h
    · rename_i hx
      rw [Sum.inl.injEq] at h
      exact ⟨item.entry_name, h.symm, eq_of_beq hx⟩
    · exact ih _ _ h

/-- When a folder scan runs to completion (`Sum.inr`), none of the folder's
items bore the exact executable name. -/
theorem scanFolder_inr_no_exact (exe_name self_name_lower : Str)
    (folder_path : List Str) :
    ∀ (items : List FsEntry) (found_exe f2 : Option (List Str)),
      scanFolder exe_name self_name_lower folder_path items found_exe =
        .inr f2 →
      ∀ item ∈ items, ¬(strLower item.entry_name = exe_name) := by
  intro items
  induction items with
  | nil => intro found f2 _ item hmem; simp at hmem
  | cons it rest ih =>
    intro found f2 h item hmem
    simp only [scanFolder] at h
    split at h
    · simp at h
    · rename_i hx
      rcases List.mem_cons.mp hmem with rfl | hmem2
      · intro hc
        exact hx (by rw [hc]; exact beq_self_eq_true _)
      · exact ih _ _ h item hmem2

/-- A forest that contains an exact-named file somewhere, but has no
exact-named direct item, contains it inside one of its subfolders. -/
theorem exact_file_in_subFolders (exe_name : Str) (fp : List Str) :
    ∀ (items : List FsEntry),
      listHasExactFile exe_name items = true →
      (∀ item ∈ items, ¬(strLower item.entry_name = exe_name)) →
      ∃ pr ∈ subFolders fp items, listHasExactFile exe_name pr.2 = true := by
  intro items
  induction items with
  | nil => intro h _; simp [listHasExactFile] at h
  | cons it rest ih =>
    intro h hno
    cases it with
    | file n =>
      simp only [listHasExactFile, Bool.or_eq_true] at h
      rcases h with h | h
      · exact absurd (eq_of_beq h)
          (hno (.file n) (List.mem_cons_self _ _))
      · rw [subFolders_cons_file]
        exact ih h (fun item hm => hno item (List.mem_cons_of_mem _ hm))
    | dir n es =>
      simp only [listHasExactFile, Bool.or_eq_true] at h
      rcases h with h | h
      · exact ⟨(fp ++ [n], es),
          by rw [subFolders_cons_dir]; exact List.mem_cons_self _ _, h⟩
      · obtain ⟨pr, hpr, hx⟩ :=
          ih h (fun item hm => hno item (List.mem_cons_of_mem _ hm))
        exact ⟨pr, by rw [subFolders_cons_dir]; exact List.mem_cons_of_mem _ hpr, hx⟩

/-- The queue loop of the breadth-first search: as long as some queued folder
still contains an exact-named file, the search returns a path whose file name
is exactly the searched name (the fallback never wins over an exact match,
wherever the exact match sits in the traversal). -/
theorem bfs_exact_of_mem (exe_name self_name_lower : Str) :
    ∀ (fuel : Nat) (queue : List (List Str × List FsEntry))
      (found_exe : Option (List Str)),
      queueSize queue ≤ fuel →
      (∃ pr ∈ queue, listHasExactFile exe_name pr.2 = true) →
      ∃ p, bfs exe_name self_name_lower queue found_exe = some p ∧
        strLower (pathFileName p) = exe_name := by
  intro fuel
  induction fuel with
  | zero =>
    intro queue found hle hex
    obtain ⟨pr, hmem, _⟩ := hex
    cases queue with
    | nil => simp at hmem
    | cons hd tl =>
      obtain ⟨fp, its⟩ := hd
      simp [queueSize] at hle
  | succ N ih =>
    intro queue found hle hex
    cases queue with
    | nil =>
      obtain ⟨pr, hmem, _⟩ := hex
      simp at hmem
    | cons hd tl =>
      obtain ⟨fp, its⟩ := hd
      rw [bfs]
      cases hscan : scanFolder exe_name self_name_lower fp its found with
      | inl exact_p =>
        obtain ⟨nm, rfl, hnm⟩ :=
          scanFolder_inl_name exe_name self_name_lower fp its found
            exact_p hscan
        exact ⟨fp ++ [nm], rfl, by rw [pathFileName_concat]; exact hnm⟩
      | inr f2 =>
        have hlt : queueSize (tl ++ subFolders fp its) <
            queueSize ((fp, its) :: tl) := by
          rw [queueSize_append]
          have := queueSize_subFolders_le fp its
          simp only [queueSize]
          omega
        have hle2 : queueSize (tl ++ subFolders fp its) ≤ N := by
          simp only [queueSize] at hle hlt ⊢
          omega
        obtain ⟨pr, hmem, hx⟩ := hex
        rcases List.mem_cons.mp hmem with rfl | hmem2
        · have hno := scanFolder_inr_no_exact exe_name self_name_lower fp its
            found f2 hscan
          obtain ⟨pr2, hpr2, hx2⟩ :=
            exact_file_in_subFolders exe_name fp its hx hno
          exact ih _ f2 hle2 ⟨pr2, List.mem_append_right _ hpr2, hx2⟩
        · exact ih _ f2 hle2 ⟨pr, List.mem_append_left _ hmem2, hx⟩

/-- Flattening leaves a folder unchanged when the number of directories among
its entries is not exactly one. -/
theorem find_inner_noop (n : Str) (es : List FsEntry)
    (h : (es.filter FsEntry.isDirB).length ≠ 1) :
    FsEntry.find_inner_unzip_folder (.dir n es) = .dir n es := by
  rw [FsEntry.find_inner_unzip_folder]
  split
  · rename_i inner heq
    exact absurd (by rw [heq]; rfl) h
  · rfl

/-- Flattening recurses into the unique directory child when there is exactly
one. -/
theorem find_inner_step (n : Str) (es : List FsEntry) (d : FsEntry)
    (h : es.filter FsEntry.isDirB = [d]) :
    FsEntry.find_inner_unzip_folder (.dir n es) =
      FsEntry.find_inner_unzip_folder d := by
  rw [FsEntry.find_inner_unzip_folder]
  split
  · rename_i inner heq
    rw [heq] at h
    cases h
    rfl
  · rename_i hne
    exact absurd h (hne d)

/-- C1: in the spec's end-to-end scenario (repository `Foo/Bar`, assets
`Bar-Setup.exe`, `Bar.zip`, `Bar-arm64.exe`, no preferred kind) the selector
as implemented picks `Bar.zip` (an Archive), not `Bar-Setup.exe`: the derived
`Ord` on `DistType` makes `Installer` the smallest variant, so the
descending `sort_by` ranks `Exe > Zip > Installer`, the reverse of the
claimed `ThirdPartyInstaller > Archive > Standalone` priority. -/
theorem c1_selector_pick_eval :
    parse_assets_for_distributable ("Bar".toList)
      [⟨"Bar-Setup.exe".toList, "u1".toList⟩, ⟨"Bar.zip".toList, "u2".toList⟩,
       ⟨"Bar-arm64.exe".toList, "u3".toList⟩]
      ("1.0".toList) none =
    some (Dist.Zip ⟨"Bar".toList, "Bar.zip".toList, "u2".toList, "1.0".toList⟩) := by
  decide

/-- C2: the shortcut snapshot misses ordinary `.lnk` files. A start-menu
folder holding the single file `app.lnk` yields an empty snapshot although
`app.lnk` ends with the `.lnk` extension, because the source tests
`Path::ends_with(".lnk")`, a component-wise suffix test that only matches a
file literally named `.lnk` (third conjunct). -/
theorem c2_shortcut_snapshot_eval :
    fetch_shortcut_files [FsEntry.file ("app.lnk".toList)] [] = [] ∧
    endsWithStr ("app.lnk".toList) (".lnk".toList) = true ∧
    fetch_shortcut_files [FsEntry.file (".lnk".toList)] [] = [[".lnk".toList]] := by
  refine ⟨?_, by decide, ?_⟩
  · simp [fetch_shortcut_files, path_ends_with]
    decide
  · simp [fetch_shortcut_files, path_ends_with]

/-- C3: uninstall-command parsing. The claim's two concrete examples hold
(first two conjuncts), but a remainder with several space-separated flags
stays one single argument (third conjunct): the source splits the argument
string on `" - "`, not on spaces, so `/currentuser /S` is not split into one
argument per flag (contradicting the source's own comment, which expects
`["/currentuser", "/S"]`). -/
theorem c3_extract_program_and_args_eval :
    extract_program_and_args ("MsiExec.exe /X{GUID}".toList) =
      (MSI_EXEC, ["/X{GUID}".toList]) ∧
    extract_program_and_args ("\"C:\\Programs\\App\\Uninstall App.exe\" /S".toList) =
      ("C:\\Programs\\App\\Uninstall App.exe".toList, ["/S".toList]) ∧
    extract_program_and_args
        ("\"C:\\Programs\\App\\Uninstall App.exe\" /currentuser /S".toList) =
      ("C:\\Programs\\App\\Uninstall App.exe".toList, ["/currentuser /S".toList]) := by
  decide

/-- C4: `Package::uninstall` panics for a `Standalone` (`Exe`) or `Archive`
(`Zip`) package whose `InstallInfo` has no installation folder — a state the
spec declares legitimate — because the source calls `.as_ref().unwrap()` on
`installation_folder` before the folder deletion. -/
theorem c4_uninstall_absent_folder_panics :
    Package.uninstall
      ⟨"app".toList, ⟨none, none, none, DistType.Exe, false⟩⟩
      ⟨none, fun _ => false⟩ = UninstallOutcome.panicked ∧
    Package.uninstall
      ⟨"app".toList, ⟨none, none, none, DistType.Zip, false⟩⟩
      ⟨none, fun _ => false⟩ = UninstallOutcome.panicked :=
  ⟨rfl, rfl⟩

/-- C5 counterexample: classification can return a foreign-OS asset. For
repository name `bar`, the asset `Bar-linux-setup.exe` contains `linux` yet
is classified (as a `ThirdPartyInstaller`), because the `mac`/`darwin`/
`linux` exclusion guards only the `.zip` branch. -/
theorem c5_classifier_foreign_os_counterexample :
    parse_asset_info ("bar".toList) ⟨"Bar-linux-setup.exe".toList, "u".toList⟩ =
      some ⟨"Bar-linux-setup.exe".toList, "u".toList, DistType.Installer, false⟩ ∧
    containsStr (strLower ("Bar-linux-setup.exe".toList)) ("linux".toList) = true := by
  decide

/-- C5 amended: classification never returns an asset whose lowercased name
contains `arm`, and never returns a `Zip`-classified asset whose lowercased
name contains `mac`, `darwin` or `linux`; the foreign-OS exclusion applies
only to `.zip` assets, not to `.exe`/`.msi` ones. -/
theorem c5_classifier_exclusions_amended (repo_name_lower : Str)
    (asset : Asset) (info : AssetInfo)
    (h : parse_asset_info repo_name_lower asset = some info) :
    containsStr (strLower asset.name) ("arm".toList) = false ∧
    (info.dist_type = DistType.Zip →
      containsStr (strLower asset.name) ("mac".toList) = false ∧
      containsStr (strLower asset.name) ("darwin".toList) = false ∧
      containsStr (strLower asset.name) ("linux".toList) = false) := by
  simp only [parse_asset_info] at h
  split at h
  · exact absurd h (by simp)
  · split at h
    · exact absurd h (by simp)
    · rename_i harm hrepo
      split at h
      · rename_i hkind
        rw [Option.some.injEq] at h
        subst h
        refine ⟨by simpa using harm, ?_⟩
        intro hz
        simp only at hz
        split at hz
        · exact absurd hz (by simp)
        · split at hz
          · rename_i hzip
            simp only [Bool.and_eq_true, Bool.not_eq_true'] at hzip
            exact ⟨hzip.1.1.2, hzip.1.2, hzip.2⟩
          · exact absurd hz (by simp)
      · exact absurd h (by simp)

/-- C5 amended, witnessed at the concrete asset `bar.zip` of repository
`bar`, which classification returns as an exact-match `Zip`. -/
theorem c5_classifier_exclusions_amended_witness :
    containsStr (strLower ("bar.zip".toList)) ("arm".toList) = false ∧
    ((⟨"bar.zip".toList, "u".toList, DistType.Zip, true⟩ : AssetInfo).dist_type =
        DistType.Zip →
      containsStr (strLower ("bar.zip".toList)) ("mac".toList) = false ∧
      containsStr (strLower ("bar.zip".toList)) ("darwin".toList) = false ∧
      containsStr (strLower ("bar.zip".toList)) ("linux".toList) = false) :=
  c5_classifier_exclusions_amended ("bar".toList)
    ⟨"bar.zip".toList, "u".toList⟩
    ⟨"bar.zip".toList, "u".toList, DistType.Zip, true⟩ (by decide)

/-- C6: whenever the tree below the searched folder contains a file whose
lowercased name is exactly `<name>.exe`, the breadth-first executable search
returns a path whose file name lowercases to exactly `<name>.exe` — the
remembered looser fallback (a name merely ending in `exe` and containing the
package name) is returned only when no exact match exists anywhere. -/
theorem c6_bfs_exact_match_wins (self_name_lower : Str)
    (folder_path : List Str) (entries : List FsEntry)
    (hex : listHasExactFile (self_name_lower ++ ".exe".toList) entries = true) :
    ∃ p, find_executable_path self_name_lower folder_path entries = some p ∧
      strLower (pathFileName p) = self_name_lower ++ ".exe".toList := by
  unfold find_executable_path
  exact bfs_exact_of_mem _ _ (queueSize [(folder_path, entries)])
    [(folder_path, entries)] none le_rfl
    ⟨(folder_path, entries), List.mem_singleton_self _, hex⟩

/-- C6 witnessed on a tree where the looser match `bar-helper.exe` sits
earlier in breadth-first order than the exact `bar.exe` inside `sub`. -/
theorem c6_bfs_exact_match_wins_witness :
    ∃ p, find_executable_path ("bar".toList) []
      [FsEntry.file ("bar-helper.exe".toList),
       FsEntry.dir ("sub".toList) [FsEntry.file ("bar.exe".toList)]] = some p ∧
      strLower (pathFileName p) = "bar".toList ++ ".exe".toList := by
  apply c6_bfs_exact_match_wins
  simp [listHasExactFile]
  decide

/-- C7 counterexample: a root with two top-level entries (one directory and
one file) is not left unchanged — the source counts only directories, finds
exactly one, and recurses into it. -/
theorem c7_flatten_counterexample :
    FsEntry.find_inner_unzip_folder
      (.dir ("root".toList)
        [.dir ("a".toList) [.file ("x.exe".toList)], .file ("b.txt".toList)]) ≠
    .dir ("root".toList)
      [.dir ("a".toList) [.file ("x.exe".toList)], .file ("b.txt".toList)] := by
  have h1 := find_inner_step ("root".toList)
    [.dir ("a".toList) [.file ("x.exe".toList)], .file ("b.txt".toList)]
    (.dir ("a".toList) [.file ("x.exe".toList)]) rfl
  have h2 := find_inner_noop ("a".toList) [.file ("x.exe".toList)] (by decide)
  rw [h1, h2]
  intro hc
  injection hc with hname _
  exact absurd hname (by decide)

/-- C7 amended: flattening is a no-op exactly when the root does not contain
exactly one directory among its top-level entries (top-level files are not
counted); it recurses precisely into a unique directory child. -/
theorem c7_flatten_amended :
    (∀ (n : Str) (es : List FsEntry),
      (es.filter FsEntry.isDirB).length ≠ 1 →
      FsEntry.find_inner_unzip_folder (.dir n es) = .dir n es) ∧
    (∀ (n : Str) (es : List FsEntry) (d : FsEntry),
      es.filter FsEntry.isDirB = [d] →
      FsEntry.find_inner_unzip_folder (.dir n es) =
        FsEntry.find_inner_unzip_folder d) :=
  ⟨find_inner_noop, find_inner_step⟩

/-- C7 amended, witnessed on a root with two files and no directory: a
no-op. -/
theorem c7_flatten_amended_witness :
    FsEntry.find_inner_unzip_folder
      (.dir ("r".toList) [.file ("a.txt".toList), .file ("b.txt".toList)]) =
    .dir ("r".toList) [.file ("a.txt".toList), .file ("b.txt".toList)] :=
  c7_flatten_amended.1 ("r".toList)
    [.file ("a.txt".toList), .file ("b.txt".toList)] (by decide)

/-- C8: fuzzy-name normalization is the pure function `fuzz_asset_name`, and
on the lowercased forms of `MyApp-Setup-x64.exe` and `myapp.exe` (repository
`MyApp`) it yields the same normalized string, both reducing to `myapp`. -/
theorem c8_fuzz_normalization_eval :
    fuzz_asset_name (strLower ("MyApp-Setup-x64.exe".toList)) = "myapp".toList ∧
    fuzz_asset_name (strLower ("myapp.exe".toList)) = "myapp".toList := by
  decide

/-- C9: after download, an `Exe`-classified distributable is reclassified as
a `ThirdPartyInstaller` exactly when the downloaded file's bytes, filtered to
ASCII letters, contain `Inno` or `Nullsoft`; the package info is carried over
unchanged, so installation then follows the installer strategy. -/
theorem c9_exe_reclassified_iff_markers (package_info : PackageInfo)
    (file_bytes : List Nat) :
    reclassify_downloaded_dist (Dist.Exe package_info) file_bytes =
      Dist.Installer package_info ↔
    (containsStr (ascii_letter_text file_bytes) ("Inno".toList) ||
      containsStr (ascii_letter_text file_bytes) ("Nullsoft".toList)) = true := by
  cases h1 : containsStr (ascii_letter_text file_bytes) ("Inno".toList) <;>
    cases h2 : containsStr (ascii_letter_text file_bytes) ("Nullsoft".toList) <;>
      simp [reclassify_downloaded_dist, check_if_is_actually_installer, h1, h2] <;>
      simp_all

/-- C9 witnessed on the byte string `Inno` (73, 110, 110, 111). -/
theorem c9_exe_reclassified_witness :
    reclassify_downloaded_dist
      (Dist.Exe ⟨"n".toList, "f".toList, "u".toList, "v".toList⟩)
      [73, 110, 110, 111] =
    Dist.Installer ⟨"n".toList, "f".toList, "u".toList, "v".toList⟩ :=
  (c9_exe_reclassified_iff_markers
    ⟨"n".toList, "f".toList, "u".toList, "v".toList⟩ [73, 110, 110, 111]).mpr
    (by decide)

/-- C10: `uninstall_installer_distributable` returns the soft `false` outcome
(never an error) when no uninstall command is stored, and when the command
runs without an OS error but the recorded executable path still exists as a
file; and it returns `true` only outside those two situations. -/
theorem c10_uninstall_soft_outcomes :
    (∀ (executable_path : Option Str) (env : UninstallEnv),
      uninstall_installer_distributable none executable_path env = false) ∧
    (∀ (us ep : Str) (env : UninstallEnv), env.run_error = none →
      env.is_file ep = true →
      uninstall_installer_distributable (some us) (some ep) env = false) ∧
    (∀ (uc ep : Option Str) (env : UninstallEnv),
      uninstall_installer_distributable uc ep env = true →
      uc ≠ none ∧
        ¬(env.run_error = none ∧ ∃ p, ep = some p ∧ env.is_file p = true)) := by
  refine ⟨fun ep env => rfl, ?_, ?_⟩
  · intro us ep env hre hif
    simp [uninstall_installer_distributable, hre, hif]
  · intro uc ep env h
    cases uc with
    | none => exact absurd h (by simp [uninstall_installer_distributable])
    | some us =>
      refine ⟨by simp, ?_⟩
      rintro ⟨hre, p, rfl, hif⟩
      simp [uninstall_installer_distributable, hre, hif] at h

/-- C10 witnessed at a stored command whose run succeeds while the recorded
executable still exists: the soft `false` outcome. -/
theorem c10_uninstall_soft_outcomes_witness :
    uninstall_installer_distributable (some ("cmd".toList))
      (some ("exe".toList)) ⟨none, fun _ => true⟩ = false :=
  c10_uninstall_soft_outcomes.2.1 ("cmd".toList) ("exe".toList)
    ⟨none, fun _ => true⟩ rfl rfl

end Senget
